import Mathlib

/-!
Shallow embedding of the session-scoped audio ingestion and speaker-attribution
pipeline of this repository, taken from
`backend/media_player/speech_to_text/process_audio_queue.py` (the
`ProcessAudioQueue` class) and the watcher registry of `backend/App/routes.py`
(the `control_audio` route).

Modelling conventions:
* Timestamps and similarity scores are rationals (`ℚ`); the Python floats in
  question (`0.1`, `0.5`) are exactly representable.
* The external ML capabilities (whisper transcription, alignment, diarization,
  pyannote embedding extraction, scipy's cosine similarity) are parameters of
  the embedded functions: the pipeline code under verification only combines
  their outputs.
* File-system state (directory listings, per-attempt lock state of a file,
  the contents of the `*.npy` artifact files) is passed explicitly.
* Python exceptions are modelled with `Except`/`Option`; `try/except` blocks
  become `match`es on those values.
-/

/-- One merged word from `aligned_result["segments"][i]["words"]` as consumed by
`embed_transcribe_speakers` (source lines 100-105): the code reads
`word["word"]`, `word["speaker"]`, `word["start"]`, `word["end"]`.
`end` is a Lean keyword, so that field is called `stop` here. -/
structure TranscriptWord where
  word : String
  speaker : String
  start : ℚ
  stop : ℚ
  deriving DecidableEq

/-- One value of the `phrases` dict built at source lines 99-105:
`{"text": ..., "start": ..., "end": ...}` (again `end` is rendered `stop`). -/
structure Phrase where
  text : String
  start : ℚ
  stop : ℚ
  deriving DecidableEq

/-- One iteration of the word loop at source lines 100-105.  The Python
`phrases` dict (insertion-ordered) is embedded as an association list:
* key absent  → insert `{"text": word + " ", "start": word.start, "end": word.stop}`
  at the end (lines 101-104: the fresh entry gets `start` from the current word,
  then the text-append and `end`-overwrite of lines 104-105 apply);
* key present → append `word + " "` to its text and overwrite its `end`
  (lines 104-105); `start` is left alone (only line 103, guarded by absence,
  ever writes it). -/
def addWord : List (String × Phrase) → TranscriptWord → List (String × Phrase)
  | [], w => [(w.speaker, ⟨w.word ++ " ", w.start, w.stop⟩)]
  | (s, p) :: ps, w =>
    if s = w.speaker then
      (s, ⟨p.text ++ w.word ++ " ", p.start, w.stop⟩) :: ps
    else
      (s, p) :: addWord ps w

/-- The `phrases` dict produced for one segment's word list by the loop at
source lines 99-105, as an insertion-ordered association list. -/
def buildPhrases (ws : List TranscriptWord) : List (String × Phrase) :=
  ws.foldl addWord []

/-- Helper for `buildPhrasesRuns`: accumulates the current run. -/
def phraseRuns (s : String) (p : Phrase) : List TranscriptWord → List (String × Phrase)
  | [] => [(s, p)]
  | w :: ws =>
    if w.speaker = s then phraseRuns s ⟨p.text ++ w.word ++ " ", p.start, w.stop⟩ ws
    else (s, p) :: phraseRuns w.speaker ⟨w.word ++ " ", w.start, w.stop⟩ ws

/-- Grouping as the specification sentence words it ("new phrase whenever the
tag changes"): each phrase is a maximal run of consecutive words sharing a
speaker tag.  This definition follows the spec's words, for comparison with
`buildPhrases`, which follows the source. -/
def buildPhrasesRuns : List TranscriptWord → List (String × Phrase)
  | [] => []
  | w :: ws => phraseRuns w.speaker ⟨w.word ++ " ", w.start, w.stop⟩ ws

/-- Appends a tag to the accumulator unless already present: the order in which
keys enter the Python `phrases` dict (first-occurrence order). -/
def insertTag (acc : List String) (s : String) : List String :=
  if s ∈ acc then acc else acc ++ [s]

/-- The distinct speaker tags of a word list in first-occurrence order:
the key order of the `phrases` dict. -/
def tagOrder (ws : List TranscriptWord) : List String :=
  ws.foldl (fun acc w => insertTag acc w.speaker) []

/-- Text accumulated for a group of words: each word followed by one space,
concatenated left to right starting from the empty string (line 104). -/
def concatText (g : List TranscriptWord) : String :=
  g.foldl (fun t w => t ++ w.word ++ " ") ""

/-- Start of the first word of a group (`0` for an empty group, matching the
`"start": 0` placeholder of line 102 that line 103 immediately overwrites). -/
def firstStart : List TranscriptWord → ℚ
  | [] => 0
  | w :: _ => w.start

/-- End of the last word of a group (`0` for an empty group, as above). -/
def lastStop : List TranscriptWord → ℚ
  | [] => 0
  | [w] => w.stop
  | _ :: w :: ws => lastStop (w :: ws)

/-- The phrase a word list actually yields for one speaker tag: built from
all of that tag's words, in order. -/
def phraseFor (ws : List TranscriptWord) (s : String) : Phrase :=
  ⟨concatText (ws.filter (fun w => w.speaker == s)),
   firstStart (ws.filter (fun w => w.speaker == s)),
   lastStop (ws.filter (fun w => w.speaker == s))⟩

/-- Tag-keyed grouping: one phrase per distinct speaker tag of the word list,
in first-occurrence order, built from all words carrying that tag. -/
def phrasesByTag (ws : List TranscriptWord) : List (String × Phrase) :=
  (tagOrder ws).map (fun s => (s, phraseFor ws s))

/-- The concrete word list used in the phrase-grouping counterexample: speaker
A speaks, then B, then A again. -/
def wordsABA : List TranscriptWord :=
  [⟨"a", "A", 0, 1⟩, ⟨"b", "B", 1, 2⟩, ⟨"c", "A", 2, 3⟩]

/-- `ProcessAudioQueue.enqueue` (source lines 51-55): `self.queue.append(file_name)`
appends at the tail of the deque. -/
def enqueue (q : List String) (file_name : String) : List String :=
  q ++ [file_name]

/-- `ProcessAudioQueue.dequeue` (source lines 57-71).  The deque is the first
component; the second component records, in order, every invocation of
`self._delete_file(file_name)` that the body performs.  `ok f = true` means
`self.process_file(f)` returns normally, `ok f = false` means it raises (the
`except Exception` arm then logs and calls `_delete_file`, and control falls
through to the unconditional `_delete_file` call at line 69).  A falsy
(empty) popped string skips the `if file_name:` body entirely; an empty deque
only logs `"Queue is empty."`.  The function always returns normally: every
pipeline exception is caught inside. -/
def dequeue (ok : String → Bool) : List String → List String × List String
  | [] => ([], [])
  | f :: rest =>
    if f ≠ "" then
      if ok f then (rest, [f]) else (rest, [f, f])
    else
      (rest, [])

/-- An operation on one session's queue, for trace-level statements. -/
inductive QOp where
  | enq : String → QOp
  | deq : QOp
  deriving DecidableEq

/-- State transformer for one queue operation.  The state is
(deque contents, filenames popped for processing so far, in pop order). -/
def applyOp (ok : String → Bool) : List String × List String → QOp → List String × List String
  | (q, popped), QOp.enq f => (enqueue q f, popped)
  | (q, popped), QOp.deq => ((dequeue ok q).1, popped ++ q.take 1)

/-- Runs a sequence of queue operations from the empty queue. -/
def runQueue (ok : String → Bool) (ops : List QOp) : List String × List String :=
  ops.foldl (applyOp ok) ([], [])

/-- The filenames enqueued by a trace, in arrival order. -/
def enqueuedOf : List QOp → List String
  | [] => []
  | QOp.enq f :: ops => f :: enqueuedOf ops
  | QOp.deq :: ops => enqueuedOf ops

/-- What the file system reports about the segment file at one deletion
attempt: the `os.path.exists` / `open(full_path, 'r+')` probe of source lines
157-159 either finds no file, finds it locked (`PermissionError`), or lets
the `os.remove` at line 161 go through. -/
inductive FileState where
  | missing : FileState
  | locked : FileState
  | free : FileState
  deriving DecidableEq

/-- Outcome of `ProcessAudioQueue._delete_file`: the file was removed, the
file was not there (lines 163-165 / 170-172), or all retries were exhausted
(line 173).  In every case the method returns normally. -/
inductive DeleteResult where
  | deleted : DeleteResult
  | missing : DeleteResult
  | gaveUp : DeleteResult
  deriving DecidableEq

/-- The `while retries < max_retries` loop of `_delete_file` (source lines
154-173).  `env i` is the file state observed by attempt number `i`
(`i` = the value of `retries` when the attempt runs); `fuel` is
`max_retries - retries`, so the loop exit `retries < max_retries` becomes
`fuel = 0`.  The second component counts the `time.sleep(wait_time)` calls
performed (each sleeps `wait_time = 0.5` time units, line 169). -/
def delete_file_go (env : Nat → FileState) (retries : Nat) : Nat → DeleteResult × Nat
  | 0 => (DeleteResult.gaveUp, 0)
  | fuel + 1 =>
    match env retries with
    | FileState.missing => (DeleteResult.missing, 0)
    | FileState.free => (DeleteResult.deleted, 0)
    | FileState.locked =>
      let p := delete_file_go env (retries + 1) fuel
      (p.1, p.2 + 1)

/-- `ProcessAudioQueue._delete_file` with its default arguments
`max_retries=5, wait_time=0.5` (source line 148): five attempts starting at
`retries = 0`. -/
def delete_file (env : Nat → FileState) : DeleteResult × Nat :=
  delete_file_go env 0 5

/-- The prefix-and-extension test a directory entry must pass to be returned
by `glob.glob(os.path.join(TEMP_DIR, f"{session_prefix}*.wav"))` at source
line 45: the basename matches `{session_id}_*.wav`, i.e. it starts with
`{session_id}_`, ends with `.wav`, and is long enough that the two parts do
not overlap (`*` matches a possibly empty middle).  Prefix/suffix tests are
on the character lists underlying the strings. -/
def matchesSessionGlob (session_id : String) (f : String) : Bool :=
  (session_id ++ "_").data.isPrefixOf f.data && (".wav").data.isSuffixOf f.data &&
    decide ((session_id ++ "_").length + 4 ≤ f.length)

/-- `ProcessAudioQueue._load_files` (source lines 38-48) applied to a listing
of basenames of the shared temp directory: keep the entries matching
`{session_id}_*.wav` and sort them (Python's `sorted`; sorting the full paths
and then taking basenames, as the source does, orders basenames the same way
because every full path is `TEMP_DIR ++ "/" ++ basename` with one shared
`TEMP_DIR`). -/
def load_files (session_id : String) (listing : List String) : List String :=
  (listing.filter (matchesSessionGlob session_id)).insertionSort (· ≤ ·)

/-- Pre-population as the claim words it: the files "whose names match that
session's prefix", sorted — with no condition on the extension.  This
definition follows the claim's words, for comparison with `load_files`,
which follows the source. -/
def load_files_per_claim (session_id : String) (listing : List String) : List String :=
  (listing.filter (fun f => (session_id ++ "_").data.isPrefixOf f.data)).insertionSort (· ≤ ·)

/-- A numpy array as the recognizer uses one: the code only ever branches on
`speaker_embedding.ndim` and, in the `ndim == 1` arm, treats the array as a
flat vector, so the embedding carries the rank and the flat data. -/
structure NDArray where
  ndim : Nat
  data : List ℚ
  deriving DecidableEq

/-- `np.mean` of a list of scores (for the nonempty lists the code feeds it). -/
def npMean (l : List ℚ) : ℚ :=
  l.sum / l.length

/-- `ProcessAudioQueue.recognize_speaker` (source lines 118-144).
`np_load` is the artifact store: `np_load name` is what `np.load` returns
for `{EMBEDDING_DIR}/name` at the moment of the call — the body itself loads
`trump_embedding.npy` and `kamala_embedding.npy` (lines 119-122) on every
invocation.  `sim u v` is the similarity capability
`1 - scipy.spatial.distance.cosine(u, v)` of lines 128/135.  The insertion-
ordered dict `{"Trump": ..., "Kamala": ...}` is embedded as the pair
(Trump score, Kamala score).  A non-1-D embedding takes the `else` arm:
print a warning and `return None` (lines 142-144). -/
def recognize_speaker (sim : List ℚ → List ℚ → ℚ) (np_load : String → List (List ℚ))
    (speaker_embedding : NDArray) : Option (ℚ × ℚ) :=
  let trump_embedding := np_load "trump_embedding.npy"
  let kamala_embedding := np_load "kamala_embedding.npy"
  if speaker_embedding.ndim = 1 then
    some (npMean (trump_embedding.map (fun frame => sim speaker_embedding.data frame)),
          npMean (kamala_embedding.map (fun frame => sim speaker_embedding.data frame)))
  else
    none

/-- Lines 109-115 of `embed_transcribe_speakers`, for one phrase whose cropped
embedding is `speaker_embedding`:
* `similarities = self.recognize_speaker(...)`;
* `speaker_similarity = max(similarities.values())` — when `similarities` is
  `None` this raises `AttributeError` (`'NoneType' object has no attribute
  'values'`), modelled as `Except.error`;
* `speaker_name = max(similarities, key=similarities.get)` — Python's `max`
  keeps the first key attaining the maximum, and the dict iterates
  `"Trump"` before `"Kamala"`, so the name is `"Kamala"` exactly when the
  Kamala score is strictly greater;
* the `< 0.1` override to `"Unknown"` (lines 113-114);
* the pair finally printed at line 115 is the result. -/
def identifyPhrase (sim : List ℚ → List ℚ → ℚ) (np_load : String → List (List ℚ))
    (speaker_embedding : NDArray) : Except String (String × ℚ) :=
  match recognize_speaker sim np_load speaker_embedding with
  | none => Except.error "AttributeError"
  | some (t, k) =>
    let speaker_similarity := max t k
    let speaker_name := if k > t then "Kamala" else "Trump"
    Except.ok (if speaker_similarity < 1/10 then "Unknown" else speaker_name,
               speaker_similarity)

/-- The `for phrase in phrases:` loop of lines 106-115, applied to the list of
cropped per-phrase embeddings (`inference.crop` at line 108 yields one
embedding per phrase; the embeddings are taken as given).  An exception
raised for one phrase propagates: the remaining phrases of the segment are
not processed. -/
def processPhrases (sim : List ℚ → List ℚ → ℚ) (np_load : String → List (List ℚ)) :
    List NDArray → Except String (List (String × ℚ))
  | [] => Except.ok []
  | e :: es =>
    match identifyPhrase sim np_load e with
    | Except.error msg => Except.error msg
    | Except.ok r =>
      match processPhrases sim np_load es with
      | Except.error msg => Except.error msg
      | Except.ok rs => Except.ok (r :: rs)

/-- The pretrained artifacts `ProcessAudioQueue.__init__` loads (source lines
29-33): the whisper model, the diarization pipeline and the embedding model.
No `*_embedding.npy` speaker-bank artifact appears among them. -/
def init_loaded_artifacts : List String :=
  ["base.en", "pyannote/speaker-diarization-3.1", "pyannote/embedding"]

/-- A concrete similarity capability used by witnesses: the dot product. -/
def dotSim (u v : List ℚ) : ℚ :=
  (List.zipWith (· * ·) u v).sum

/-- One watcher (`Observer`) ever constructed by the `play` arm of
`control_audio` (`routes.py` lines 97-101): its creation index, the session
it was created for, and whether it is still live (started and not yet
stopped-and-joined). -/
structure WatcherRec where
  wid : Nat
  session : String
  live : Bool
  deriving DecidableEq

/-- The watcher-registry state of `routes.py`: the next creation index, every
watcher constructed so far, and the `active_threads` map (session id →
creation index of the registered watcher), as an insertion-ordered
association list. -/
structure RegistryState where
  nextId : Nat
  watchers : List WatcherRec
  active_threads : List (String × Nat)
  deriving DecidableEq

/-- Lookup in an association list: Python `session_id in active_threads` /
`active_threads[session_id]`. -/
def lookupA : List (String × Nat) → String → Option Nat
  | [], _ => none
  | (s, n) :: m, t => if s = t then some n else lookupA m t

/-- Update/insert in an association list: `active_threads[session_id] = observer`. -/
def setA : List (String × Nat) → String → Nat → List (String × Nat)
  | [], t, v => [(t, v)]
  | (s, n) :: m, t, v => if s = t then (t, v) :: m else (s, n) :: setA m t v

/-- Marks the watcher with creation index `n` as no longer live:
`active_threads[session_id].stop(); active_threads[session_id].join()`
(`routes.py` lines 95-96). -/
def stopWatcher (ws : List WatcherRec) (n : Nat) : List WatcherRec :=
  ws.map (fun w => if w.wid = n then ⟨w.wid, w.session, false⟩ else w)

/-- The `action == 'play'` critical section of `control_audio` (`routes.py`
lines 93-102), run under `active_threads_lock`, which serializes it; the
model is therefore sequential:
1. if a watcher is registered for the session, stop it and join it
   (lines 94-96);
2. construct and start a fresh watcher (lines 97-100);
3. register it under the session id (line 101). -/
def play (st : RegistryState) (sid : String) : RegistryState :=
  let st1 : RegistryState :=
    match lookupA st.active_threads sid with
    | some oldId => ⟨st.nextId, stopWatcher st.watchers oldId, st.active_threads⟩
    | none => st
  ⟨st1.nextId + 1,
   st1.watchers ++ [⟨st1.nextId, sid, true⟩],
   setA st1.active_threads sid st1.nextId⟩

/-- The registry before any play action: no watcher ever constructed. -/
def initState : RegistryState :=
  ⟨0, [], []⟩

/-- Runs a sequence of play actions (each for the named session) from the
initial registry state. -/
def runPlays (sids : List String) : RegistryState :=
  sids.foldl play initState

/-- The live watchers created for a given session. -/
def liveFor (st : RegistryState) (sid : String) : List WatcherRec :=
  st.watchers.filter (fun w => w.session == sid && w.live)

/-- Registry invariant maintained by `play`: (1) every live watcher is the
one registered for its session; (2) creation indices are distinct; (3) all
creation indices are below `nextId`; (4) whatever is registered is a live
watcher of that very session. -/
def RegInv (st : RegistryState) : Prop :=
  (∀ w ∈ st.watchers, w.live = true → lookupA st.active_threads w.session = some w.wid) ∧
  (st.watchers.map WatcherRec.wid).Nodup ∧
  (∀ w ∈ st.watchers, w.wid < st.nextId) ∧
  (∀ s n, lookupA st.active_threads s = some n →
    ∃ w ∈ st.watchers, w.wid = n ∧ w.session = s ∧ w.live = true)

/-- The queue component returned by `dequeue` is always the tail of the input
deque: `popleft` removes the head whatever the processing outcome. -/
theorem dequeue_fst (ok : String → Bool) (q : List String) : (dequeue ok q).1 = q.tail := by
  cases q with
  | nil => rfl
  | cons f rest =>
    by_cases h : f = ""
    · simp [dequeue, h]
    · by_cases hok : ok f <;> simp [dequeue, h, hok]

/-- Invariant of queue traces: the filenames popped so far followed by the
current deque contents are exactly the initial contents followed by the
enqueued filenames, in arrival order. -/
theorem runQueue_inv (ok : String → Bool) :
    ∀ (ops : List QOp) (q popped : List String),
      (ops.foldl (applyOp ok) (q, popped)).2 ++ (ops.foldl (applyOp ok) (q, popped)).1
        = popped ++ q ++ enqueuedOf ops
  | [], q, popped => by simp [enqueuedOf]
  | QOp.enq f :: ops, q, popped => by
    simp only [List.foldl_cons, applyOp, enqueue, enqueuedOf]
    rw [runQueue_inv ok ops]
    simp
  | QOp.deq :: ops, q, popped => by
    cases q with
    | nil =>
      simp only [List.foldl_cons, applyOp, enqueuedOf, List.take_nil, List.append_nil]
      rw [show (dequeue ok []).1 = [] from rfl]
      rw [runQueue_inv ok ops]
      simp
    | cons f rest =>
      simp only [List.foldl_cons, applyOp, enqueuedOf]
      rw [dequeue_fst]
      rw [runQueue_inv ok ops]
      simp

/-- C2 counterexample: popping `"a.wav"` when the pipeline raises on it makes
`dequeue` invoke `_delete_file("a.wav")` twice — once from the `except` arm
(line 68) and once from the unconditional call (line 69) — not exactly once
as the claim states. -/
theorem c2_counterexample :
    (dequeue (fun _ => false) ["a.wav"]).2 = ["a.wav", "a.wav"] := by
  decide

/-- C2 (amended): for every non-empty filename popped by `dequeue`, cleanup is
invoked exactly once when the pipeline invocation succeeds and exactly twice
when it raises; the pipeline error is caught inside `dequeue` (which returns
normally, having removed the head from the deque) and does not abort the
dequeue. -/
theorem c2_cleanup_per_pop (ok : String → Bool) (f : String) (rest : List String)
    (h : f ≠ "") :
    dequeue ok (f :: rest) = (rest, if ok f then [f] else [f, f]) := by
  simp only [dequeue]
  rw [if_pos h]
  cases hok : ok f <;> simp [hok]

/-- Witness for `c2_cleanup_per_pop` at `f = "a.wav"` with a raising pipeline. -/
theorem c2_witness :
    "a.wav" ≠ "" ∧ dequeue (fun _ => false) ["a.wav"] = ([], ["a.wav", "a.wav"]) :=
  ⟨by decide, c2_cleanup_per_pop (fun _ => false) "a.wav" [] (by decide)⟩

/-- C5: `enqueue` appends the filename at the tail, `dequeue` on an empty
queue is a no-op returning the unchanged (empty) queue, `dequeue` on a
non-empty queue removes exactly the head, and over every operation sequence
the popped filenames followed by the remaining queue equal the enqueued
filenames in arrival order — FIFO processing. -/
theorem c5_fifo_queue (ok : String → Bool) :
    (∀ q f, enqueue q f = q ++ [f]) ∧
    (dequeue ok [] = ([], [])) ∧
    (∀ f rest, (dequeue ok (f :: rest)).1 = rest) ∧
    (∀ ops, (runQueue ok ops).2 ++ (runQueue ok ops).1 = enqueuedOf ops) := by
  refine ⟨fun q f => rfl, rfl, fun f rest => dequeue_fst ok (f :: rest), fun ops => ?_⟩
  simpa [runQueue] using runQueue_inv ok ops [] []

/-- All five attempts see a locked file: the loop exhausts its fuel, sleeping
after each failed attempt, and reports that it gave up. -/
theorem delete_go_locked (env : Nat → FileState) :
    ∀ (fuel start : Nat), (∀ k, k < fuel → env (start + k) = FileState.locked) →
      delete_file_go env start fuel = (DeleteResult.gaveUp, fuel)
  | 0, _, _ => rfl
  | fuel + 1, start, h => by
    have h0 : env start = FileState.locked := by simpa using h 0 (Nat.succ_pos _)
    have ih := delete_go_locked env fuel (start + 1) (fun k hk => by
      have hx : start + 1 + k = start + (k + 1) := by omega
      rw [hx]; exact h (k + 1) (by omega))
    simp [delete_file_go, h0, ih]

/-- The file becomes free at attempt `i` (within the fuel budget) after `i`
locked attempts: the deletion succeeds, having slept `i` times. -/
theorem delete_go_free (env : Nat → FileState) :
    ∀ (fuel start i : Nat), i < fuel → env (start + i) = FileState.free →
      (∀ j, j < i → env (start + j) = FileState.locked) →
      delete_file_go env start fuel = (DeleteResult.deleted, i)
  | 0, _, i, hi, _, _ => absurd hi (Nat.not_lt_zero i)
  | fuel + 1, start, 0, _, hfree, _ => by
    have h0 : env start = FileState.free := by simpa using hfree
    simp [delete_file_go, h0]
  | fuel + 1, start, i + 1, hi, hfree, hlock => by
    have h0 : env start = FileState.locked := by simpa using hlock 0 (Nat.succ_pos _)
    have ih := delete_go_free env fuel (start + 1) i (by omega)
      (by have hx : start + 1 + i = start + (i + 1) := by omega
          rw [hx]; exact hfree)
      (fun j hj => by
        have hx : start + 1 + j = start + (j + 1) := by omega
        rw [hx]; exact hlock (j + 1) (by omega))
    simp [delete_file_go, h0, ih]

/-- The loop never sleeps more often than it has fuel. -/
theorem delete_go_sleeps_le (env : Nat → FileState) :
    ∀ (fuel start : Nat), (delete_file_go env start fuel).2 ≤ fuel
  | 0, _ => Nat.le_refl 0
  | fuel + 1, start => by
    simp only [delete_file_go]
    split
    · exact Nat.zero_le _
    · exact Nat.zero_le _
    · exact Nat.succ_le_succ (delete_go_sleeps_le env fuel (start + 1))

/-- C7: `_delete_file` makes at most 5 attempts with a fixed 0.5-time-unit
sleep between consecutive attempts (the sleep count is the second component,
each sleep being `wait_time = 0.5`).  If every one of the 5 attempts finds
the file locked, the method returns normally — no error propagates — having
merely logged the failure and left the file on disk (`gaveUp`).  If the lock
is released at some attempt `i < 5`, the deletion succeeds then. -/
theorem c7_delete_retry (env : Nat → FileState) :
    ((∀ i, i < 5 → env i = FileState.locked) →
        delete_file env = (DeleteResult.gaveUp, 5)) ∧
    (∀ i, i < 5 → env i = FileState.free → (∀ j, j < i → env j = FileState.locked) →
        delete_file env = (DeleteResult.deleted, i)) ∧
    (delete_file env).2 ≤ 5 := by
  refine ⟨fun h => ?_, fun i hi hfree hlock => ?_, delete_go_sleeps_le env 5 0⟩
  · exact delete_go_locked env 5 0 (fun k hk => by simpa using h k hk)
  · exact delete_go_free env 5 0 i hi (by simpa using hfree)
      (fun j hj => by simpa using hlock j hj)

/-- Witness for `c7_delete_retry`: a permanently locked file exhausts all 5
attempts; a lock released before attempt 3 lets the deletion succeed. -/
theorem c7_witness :
    delete_file (fun _ => FileState.locked) = (DeleteResult.gaveUp, 5) ∧
    delete_file (fun i => if i < 3 then FileState.locked else FileState.free)
      = (DeleteResult.deleted, 3) :=
  ⟨(c7_delete_retry _).1 (fun _ _ => rfl),
   (c7_delete_retry _).2.1 3 (by decide) (by decide)
     (fun j hj => by simp only [if_pos hj])⟩

/-- C3 counterexample: a rank-2 embedding for the first phrase makes the
segment loop raise (`max(None.values())`), so the following well-formed
phrase of the same segment is never processed — the segment is aborted, not
continued with an unrecognized phrase.  Alone, the well-formed phrase would
have been processed fine. -/
theorem c3_counterexample :
    processPhrases (fun _ _ => 1) (fun _ => [[1]]) [⟨2, []⟩, ⟨1, [1]⟩]
      = Except.error "AttributeError" ∧
    processPhrases (fun _ _ => 1) (fun _ => [[1]]) [⟨1, [1]⟩]
      = Except.ok [("Trump", 1)] := by
  constructor
  · rfl
  · norm_num [processPhrases, identifyPhrase, recognize_speaker, npMean]

/-- C3 (amended): a non-1-D embedding makes `recognize_speaker` log its
warning and return `None`; the caller then raises on `None.values()`, so the
rest of the segment is aborted (the exception is caught only at the
`dequeue` level, where the segment file is still cleaned up — see C2). -/
theorem c3_shape_aborts (sim : List ℚ → List ℚ → ℚ) (np_load : String → List (List ℚ))
    (e : NDArray) (es : List NDArray) (h : e.ndim ≠ 1) :
    recognize_speaker sim np_load e = none ∧
    processPhrases sim np_load (e :: es) = Except.error "AttributeError" := by
  have hr : recognize_speaker sim np_load e = none := by
    simp [recognize_speaker, h]
  refine ⟨hr, ?_⟩
  simp [processPhrases, identifyPhrase, hr]

/-- Witness for `c3_shape_aborts` at a rank-2 embedding. -/
theorem c3_witness :
    recognize_speaker (fun _ _ => (1 : ℚ)) (fun _ => []) ⟨2, []⟩ = none ∧
    processPhrases (fun _ _ => (1 : ℚ)) (fun _ => []) [⟨2, []⟩]
      = Except.error "AttributeError" :=
  c3_shape_aborts _ _ _ _ (by decide)

/-- C4: on a flat 1-D embedding, `recognize_speaker` scores each bank by the
mean of the per-reference similarities against that bank's vectors, and the
phrase step returns the name of a bank attaining the maximal mean score
together with that maximal score — overridden to `"Unknown"` when the
maximal score is below `1/10`.  The banks are required nonempty, as the real
artifact files are (`np.mean` of an empty list is NaN, outside this model). -/
theorem c4_identify (sim : List ℚ → List ℚ → ℚ) (np_load : String → List (List ℚ))
    (e : NDArray) (h1 : e.ndim = 1)
    (_ht : np_load "trump_embedding.npy" ≠ []) (_hk : np_load "kamala_embedding.npy" ≠ []) :
    recognize_speaker sim np_load e =
      some (npMean ((np_load "trump_embedding.npy").map (fun frame => sim e.data frame)),
            npMean ((np_load "kamala_embedding.npy").map (fun frame => sim e.data frame))) ∧
    (∃ name score, identifyPhrase sim np_load e = Except.ok (name, score) ∧
      score = max (npMean ((np_load "trump_embedding.npy").map (fun frame => sim e.data frame)))
                  (npMean ((np_load "kamala_embedding.npy").map (fun frame => sim e.data frame))) ∧
      (score < 1/10 → name = "Unknown") ∧
      (¬ score < 1/10 →
        (name = "Trump" ∧
          score = npMean ((np_load "trump_embedding.npy").map (fun frame => sim e.data frame))) ∨
        (name = "Kamala" ∧
          score = npMean ((np_load "kamala_embedding.npy").map (fun frame => sim e.data frame))))) := by
  set t := npMean ((np_load "trump_embedding.npy").map (fun frame => sim e.data frame)) with ht_def
  set k := npMean ((np_load "kamala_embedding.npy").map (fun frame => sim e.data frame)) with hk_def
  have hr : recognize_speaker sim np_load e = some (t, k) := by
    simp [recognize_speaker, h1]
  refine ⟨hr, ⟨if max t k < 1/10 then "Unknown" else if k > t then "Kamala" else "Trump",
    max t k, ?_, rfl, fun hlow => by rw [if_pos hlow], fun hhigh => ?_⟩⟩
  · unfold identifyPhrase
    rw [hr]
  · rw [if_neg hhigh]
    by_cases hkt : k > t
    · exact Or.inr ⟨by rw [if_pos hkt], max_eq_right (le_of_lt hkt)⟩
    · exact Or.inl ⟨by rw [if_neg hkt], max_eq_left (not_lt.mp hkt)⟩

/-- Witness for `c4_identify`: with a constant similarity of `1/2` and
one-vector banks, both bank scores are `1/2`. -/
theorem c4_witness :
    recognize_speaker (fun _ _ => (1:ℚ)/2) (fun _ => [[1]]) ⟨1, [1]⟩ = some (1/2, 1/2) := by
  have h := (c4_identify (fun _ _ => (1:ℚ)/2) (fun _ => [[1]]) ⟨1, [1]⟩ rfl
    (by decide) (by decide)).1
  rw [h]
  norm_num [npMean]

/-- C9 counterexample: neither speaker-bank artifact is among the artifacts
`__init__` loads, and the result of a post-construction `recognize_speaker`
call depends on the artifact store at the moment of the call — the banks are
read from disk inside `recognize_speaker` (lines 119-122), not captured once
at pipeline construction. -/
theorem c9_counterexample :
    "trump_embedding.npy" ∉ init_loaded_artifacts ∧
    "kamala_embedding.npy" ∉ init_loaded_artifacts ∧
    recognize_speaker dotSim (fun _ => [[1]]) ⟨1, [1]⟩ ≠
      recognize_speaker dotSim (fun _ => [[0]]) ⟨1, [1]⟩ := by
  refine ⟨by decide, by decide, ?_⟩
  have h1 : recognize_speaker dotSim (fun _ => [[1]]) ⟨1, [1]⟩ = some (1, 1) := by
    norm_num [recognize_speaker, npMean, dotSim]
  have h2 : recognize_speaker dotSim (fun _ => [[0]]) ⟨1, [1]⟩ = some (0, 0) := by
    norm_num [recognize_speaker, npMean, dotSim]
  rw [h1, h2]
  simp

/-- C9 (amended): the reference banks are not loaded at construction time
(`__init__` loads only the three model artifacts); instead every invocation
of `recognize_speaker` reloads both `*_embedding.npy` artifacts and scores
against whatever the store holds at that moment. -/
theorem c9_reload (sim : List ℚ → List ℚ → ℚ) (np_load : String → List (List ℚ))
    (e : NDArray) (h1 : e.ndim = 1) :
    "trump_embedding.npy" ∉ init_loaded_artifacts ∧
    "kamala_embedding.npy" ∉ init_loaded_artifacts ∧
    recognize_speaker sim np_load e =
      some (npMean ((np_load "trump_embedding.npy").map (fun frame => sim e.data frame)),
            npMean ((np_load "kamala_embedding.npy").map (fun frame => sim e.data frame))) := by
  refine ⟨by decide, by decide, ?_⟩
  simp [recognize_speaker, h1]

/-- Witness for `c9_reload`: a store holding the single reference vector
`[3]` yields the dot-product score `6` for the query `[2]`. -/
theorem c9_witness :
    recognize_speaker dotSim (fun _ => [[3]]) ⟨1, [2]⟩ = some (6, 6) := by
  have h := (c9_reload dotSim (fun _ => [[3]]) ⟨1, [2]⟩ rfl).2.2
  rw [h]
  norm_num [npMean, dotSim]

/-- C10: when the decision is overridden to `"Unknown"` because the maximal
mean similarity is below `1/10`, the similarity reported alongside
`"Unknown"` is still that raw maximal mean score, not zero or a sentinel. -/
theorem c10_unknown_raw_score (sim : List ℚ → List ℚ → ℚ) (np_load : String → List (List ℚ))
    (e : NDArray) (h1 : e.ndim = 1)
    (hlow : max (npMean ((np_load "trump_embedding.npy").map (fun frame => sim e.data frame)))
                (npMean ((np_load "kamala_embedding.npy").map (fun frame => sim e.data frame)))
              < 1/10) :
    identifyPhrase sim np_load e =
      Except.ok ("Unknown",
        max (npMean ((np_load "trump_embedding.npy").map (fun frame => sim e.data frame)))
            (npMean ((np_load "kamala_embedding.npy").map (fun frame => sim e.data frame)))) := by
  have hr : recognize_speaker sim np_load e =
      some (npMean ((np_load "trump_embedding.npy").map (fun frame => sim e.data frame)),
            npMean ((np_load "kamala_embedding.npy").map (fun frame => sim e.data frame))) := by
    simp [recognize_speaker, h1]
  unfold identifyPhrase
  rw [hr]
  simp only [if_pos hlow]

/-- Witness for `c10_unknown_raw_score`: constant similarity `1/20` stays
below the `1/10` threshold and is reported as-is alongside `"Unknown"`. -/
theorem c10_witness :
    identifyPhrase (fun _ _ => (1:ℚ)/20) (fun _ => [[1]]) ⟨1, [1]⟩
      = Except.ok ("Unknown", 1/20) := by
  have h := c10_unknown_raw_score (fun _ _ => (1:ℚ)/20) (fun _ => [[1]]) ⟨1, [1]⟩ rfl
    (by norm_num [npMean])
  rw [h]
  norm_num [npMean]

/-- C8 counterexample: with session id `"s"` and a temp directory holding
`s_1.txt`, the queue is pre-populated empty — `s_1.txt` matches the session
prefix (the claim's criterion, under which it would be loaded) but not the
`{session_id}_*.wav` glob, which also demands the `.wav` extension; a `.wav`
file is loaded. -/
theorem c8_counterexample :
    load_files "s" ["s_1.txt"] = [] ∧
    load_files_per_claim "s" ["s_1.txt"] = ["s_1.txt"] ∧
    load_files "s" ["s_1.wav"] = ["s_1.wav"] := by
  refine ⟨rfl, rfl, rfl⟩

/-- C8 (amended): on construction the queue is pre-populated with the
basenames of the temp-directory files matching `{sessionId}_*.wav` — the
session prefix and the `.wav` extension — in lexicographically sorted
(oldest-first) filename order. -/
theorem c8_load_files (session_id : String) (listing : List String) :
    (load_files session_id listing).Sorted (· ≤ ·) ∧
    (load_files session_id listing).Perm (listing.filter (matchesSessionGlob session_id)) ∧
    (∀ f, f ∈ load_files session_id listing ↔
      f ∈ listing ∧ (session_id ++ "_").data.isPrefixOf f.data = true ∧
        (".wav").data.isSuffixOf f.data = true ∧
        (session_id ++ "_").length + 4 ≤ f.length) := by
  refine ⟨List.sorted_insertionSort _ _, List.perm_insertionSort _ _, fun f => ?_⟩
  rw [load_files, List.mem_insertionSort, List.mem_filter]
  simp [matchesSessionGlob, and_assoc]

/-- Appending a word leaves the key order as `insertTag` describes: the
word's tag is appended to the dict's key order unless already present. -/
theorem addWord_keys (w : TranscriptWord) :
    ∀ ps : List (String × Phrase),
      (addWord ps w).map Prod.fst = insertTag (ps.map Prod.fst) w.speaker
  | [] => by simp [addWord, insertTag]
  | (s, p) :: ps => by
    by_cases h : s = w.speaker
    · subst h
      simp [addWord, insertTag]
    · have ih := addWord_keys w ps
      simp only [addWord, if_neg h, List.map_cons, ih, insertTag]
      by_cases hm : w.speaker ∈ ps.map Prod.fst
      · simp [hm, Ne.symm h]
      · simp [hm, Ne.symm h]

/-- A word whose tag is absent from the dict appends a fresh entry. -/
theorem addWord_not_mem (w : TranscriptWord) :
    ∀ ps : List (String × Phrase), w.speaker ∉ ps.map Prod.fst →
      addWord ps w = ps ++ [(w.speaker, ⟨w.word ++ " ", w.start, w.stop⟩)]
  | [], _ => rfl
  | (s, p) :: ps, h => by
    have hs : s ≠ w.speaker := fun e => h (by simp [e])
    have hm : w.speaker ∉ ps.map Prod.fst := fun e => h (by simp [e])
    simp [addWord, hs, addWord_not_mem w ps hm]

/-- The entry update of `addWord` leaves entries with other keys alone. -/
theorem map_update_of_not_mem (w : TranscriptWord) :
    ∀ ps : List (String × Phrase), w.speaker ∉ ps.map Prod.fst →
      ps.map (fun e => if e.1 = w.speaker then
          (e.1, (⟨e.2.text ++ w.word ++ " ", e.2.start, w.stop⟩ : Phrase)) else e) = ps
  | [], _ => rfl
  | (s, p) :: ps, h => by
    have hs : s ≠ w.speaker := fun e => h (by simp [e])
    have hm : w.speaker ∉ ps.map Prod.fst := fun e => h (by simp [e])
    simp [hs, map_update_of_not_mem w ps hm]

/-- A word whose tag is present (keys distinct) updates exactly that entry:
text extended by the word and a space, `end` overwritten, `start` kept. -/
theorem addWord_mem (w : TranscriptWord) :
    ∀ ps : List (String × Phrase), (ps.map Prod.fst).Nodup → w.speaker ∈ ps.map Prod.fst →
      addWord ps w = ps.map (fun e => if e.1 = w.speaker then
          (e.1, (⟨e.2.text ++ w.word ++ " ", e.2.start, w.stop⟩ : Phrase)) else e)
  | [], _, hm => absurd hm (by simp)
  | (s, p) :: ps, hnd, hm => by
    rw [List.map_cons] at hnd hm
    by_cases h : s = w.speaker
    · subst h
      have hnotin : w.speaker ∉ ps.map Prod.fst := (List.nodup_cons.mp hnd).1
      simp [addWord, map_update_of_not_mem w ps hnotin]
    · have hm' : w.speaker ∈ ps.map Prod.fst := by
        rcases List.mem_cons.mp hm with h1 | h1
        · exact absurd h1.symm h
        · exact h1
      simp [addWord, h, addWord_mem w ps (List.nodup_cons.mp hnd).2 hm']

/-- `insertTag` preserves distinctness of the accumulated tags. -/
theorem insertTag_nodup (acc : List String) (s : String) (h : acc.Nodup) :
    (insertTag acc s).Nodup := by
  unfold insertTag
  split
  · exact h
  · next hm => simp [List.nodup_append, h, hm]

/-- The tag order accumulated from any distinct starting accumulator stays
distinct. -/
theorem tagOrder_aux_nodup :
    ∀ (ws : List TranscriptWord) (acc : List String), acc.Nodup →
      (ws.foldl (fun acc w => insertTag acc w.speaker) acc).Nodup
  | [], _, h => h
  | w :: ws, acc, h => tagOrder_aux_nodup ws _ (insertTag_nodup acc w.speaker h)

/-- The first-occurrence tag order of a word list has no duplicates. -/
theorem tagOrder_nodup (ws : List TranscriptWord) : (tagOrder ws).Nodup :=
  tagOrder_aux_nodup ws [] List.nodup_nil

/-- Membership in `insertTag`. -/
theorem mem_insertTag (t : String) (acc : List String) (s : String) :
    t ∈ insertTag acc s ↔ t ∈ acc ∨ t = s := by
  unfold insertTag
  split
  · next hm =>
    constructor
    · exact fun h => Or.inl h
    · rintro (h | rfl)
      · exact h
      · exact hm
  · simp

/-- Membership in the accumulated tag order. -/
theorem mem_tagOrder_aux (t : String) :
    ∀ (ws : List TranscriptWord) (acc : List String),
      t ∈ ws.foldl (fun acc w => insertTag acc w.speaker) acc ↔
        t ∈ acc ∨ ∃ w ∈ ws, w.speaker = t
  | [], acc => by simp
  | w :: ws, acc => by
    rw [List.foldl_cons, mem_tagOrder_aux t ws, mem_insertTag]
    constructor
    · rintro ((h | h) | h)
      · exact Or.inl h
      · exact Or.inr ⟨w, by simp, h.symm⟩
      · rcases h with ⟨x, hx, hxt⟩
        exact Or.inr ⟨x, by simp [hx], hxt⟩
    · rintro (h | ⟨x, hx, hxt⟩)
      · exact Or.inl (Or.inl h)
      · rcases List.mem_cons.mp hx with rfl | hx'
        · exact Or.inl (Or.inr hxt.symm)
        · exact Or.inr ⟨x, hx', hxt⟩

/-- A tag occurs in the tag order exactly when some word carries it. -/
theorem mem_tagOrder (t : String) (ws : List TranscriptWord) :
    t ∈ tagOrder ws ↔ ∃ w ∈ ws, w.speaker = t := by
  rw [tagOrder, mem_tagOrder_aux]
  simp

/-- Appending one word extends the group of its tag and no other group. -/
theorem filter_speaker_append (ws : List TranscriptWord) (w : TranscriptWord) (s : String) :
    (ws ++ [w]).filter (fun x => x.speaker == s) =
      ws.filter (fun x => x.speaker == s) ++ (if w.speaker = s then [w] else []) := by
  rw [List.filter_append]
  congr 1
  by_cases h : w.speaker = s <;> simp [List.filter_singleton, h]

/-- Accumulated text of a group extended by one word. -/
theorem concatText_append (g : List TranscriptWord) (w : TranscriptWord) :
    concatText (g ++ [w]) = concatText g ++ w.word ++ " " := by
  unfold concatText
  rw [List.foldl_append]
  rfl

/-- The first word of a nonempty group is unchanged by appending. -/
theorem firstStart_append (g : List TranscriptWord) (w : TranscriptWord) (h : g ≠ []) :
    firstStart (g ++ [w]) = firstStart g := by
  cases g with
  | nil => exact absurd rfl h
  | cons x xs => rfl

/-- The last word of a group extended by one word is that word. -/
theorem lastStop_append (w : TranscriptWord) :
    ∀ g : List TranscriptWord, lastStop (g ++ [w]) = w.stop
  | [] => rfl
  | [_] => rfl
  | x :: y :: g => by
    simp only [List.cons_append, lastStop]
    exact lastStop_append w (y :: g)

/-- A tag present in the tag order has a nonempty group. -/
theorem group_ne_nil (ws : List TranscriptWord) (s : String) (h : s ∈ tagOrder ws) :
    ws.filter (fun x => x.speaker == s) ≠ [] := by
  rcases (mem_tagOrder s ws).mp h with ⟨x, hx, hxs⟩
  intro hnil
  have hxmem : x ∈ ws.filter (fun x => x.speaker == s) := by
    rw [List.mem_filter]
    exact ⟨hx, by simp [hxs]⟩
  rw [hnil] at hxmem
  exact absurd hxmem (List.not_mem_nil x)

/-- A tag absent from the tag order has an empty group. -/
theorem group_nil_of_not_mem (ws : List TranscriptWord) (s : String) (h : s ∉ tagOrder ws) :
    ws.filter (fun x => x.speaker == s) = [] := by
  rw [List.filter_eq_nil_iff]
  intro x hx
  simp only [beq_iff_eq]
  exact fun hxs => h ((mem_tagOrder s ws).mpr ⟨x, hx, hxs⟩)

/-- Tag order over an appended word. -/
theorem tagOrder_append (ws : List TranscriptWord) (w : TranscriptWord) :
    tagOrder (ws ++ [w]) = insertTag (tagOrder ws) w.speaker := by
  unfold tagOrder
  rw [List.foldl_append]
  rfl

/-- The phrase dict over an appended word. -/
theorem buildPhrases_append (ws : List TranscriptWord) (w : TranscriptWord) :
    buildPhrases (ws ++ [w]) = addWord (buildPhrases ws) w := by
  unfold buildPhrases
  rw [List.foldl_append]
  rfl

/-- The keys of the tag-grouped phrases are the tag order. -/
theorem phrasesByTag_keys (ws : List TranscriptWord) :
    (phrasesByTag ws).map Prod.fst = tagOrder ws := by
  unfold phrasesByTag
  rw [List.map_map]
  have h : (tagOrder ws).map (Prod.fst ∘ fun s => (s, phraseFor ws s))
      = (tagOrder ws).map id := List.map_congr_left (fun a _ => rfl)
  rw [h, List.map_id]

/-- C1 (amended): for one segment, the code merges ALL words sharing a
speaker tag into one phrase — one phrase per distinct tag, keyed by the dict
in first-appearance order — whose start is the tag's first word's start,
whose end is the tag's last word's end, and whose text is the concatenation
of all of the tag's words, each followed by one space.  For word lists in
which every tag's words are consecutive (such as the claim's `[A,A,B]`
example) this coincides with the claimed maximal-run grouping; when a
speaker re-appears after an interruption it does not (`c1_counterexample`). -/
theorem c1_phrase_grouping : ∀ ws : List TranscriptWord, buildPhrases ws = phrasesByTag ws := by
  intro ws
  induction ws using List.reverseRecOn with
  | nil => rfl
  | append_singleton ws w ih =>
    rw [buildPhrases_append, ih]
    by_cases hm : w.speaker ∈ tagOrder ws
    · rw [addWord_mem w (phrasesByTag ws)
        (by rw [phrasesByTag_keys]; exact tagOrder_nodup ws)
        (by rw [phrasesByTag_keys]; exact hm)]
      unfold phrasesByTag
      rw [tagOrder_append,
        show insertTag (tagOrder ws) w.speaker = tagOrder ws from if_pos hm,
        List.map_map]
      apply List.map_congr_left
      intro s hs
      dsimp only [Function.comp_apply]
      by_cases hsw : s = w.speaker
      · subst hsw
        rw [if_pos rfl]
        unfold phraseFor
        rw [filter_speaker_append, if_pos rfl, concatText_append,
          firstStart_append _ _ (group_ne_nil ws w.speaker hs), lastStop_append]
      · rw [if_neg hsw]
        unfold phraseFor
        rw [filter_speaker_append, if_neg (fun e => hsw e.symm), List.append_nil]
    · rw [addWord_not_mem w (phrasesByTag ws) (by rw [phrasesByTag_keys]; exact hm)]
      unfold phrasesByTag
      rw [tagOrder_append,
        show insertTag (tagOrder ws) w.speaker = tagOrder ws ++ [w.speaker] from if_neg hm,
        List.map_append]
      congr 1
      · apply List.map_congr_left
        intro s hs
        have hsw : w.speaker ≠ s := fun e => hm (e ▸ hs)
        unfold phraseFor
        rw [filter_speaker_append, if_neg hsw, List.append_nil]
      · simp only [List.map_cons, List.map_nil]
        unfold phraseFor
        rw [filter_speaker_append, if_pos rfl, group_nil_of_not_mem ws w.speaker hm,
          List.nil_append]
        rfl

/-- Looking up the key just set returns the value just set. -/
theorem lookupA_setA_self : ∀ (m : List (String × Nat)) (s : String) (v : Nat),
    lookupA (setA m s v) s = some v
  | [], s, v => by simp [setA, lookupA]
  | (s', n) :: m, s, v => by
    by_cases h : s' = s
    · simp [setA, h, lookupA]
    · simp [setA, h, lookupA, lookupA_setA_self m s v]

/-- Setting one key leaves lookups of other keys unchanged. -/
theorem lookupA_setA_ne : ∀ (m : List (String × Nat)) (s t : String) (v : Nat), s ≠ t →
    lookupA (setA m s v) t = lookupA m t
  | [], s, t, v, h => by simp [setA, lookupA, h]
  | (s', n) :: m, s, t, v, h => by
    by_cases h1 : s' = s
    · subst h1
      simp [setA, lookupA, h]
    · by_cases h2 : s' = t
      · subst h2
        simp [setA, lookupA, h1]
      · simp [setA, h1, lookupA, h2, lookupA_setA_ne m s t v h]

/-- Stopping a watcher does not change the recorded creation indices. -/
theorem stopWatcher_wids (ws : List WatcherRec) (n : Nat) :
    (stopWatcher ws n).map WatcherRec.wid = ws.map WatcherRec.wid := by
  unfold stopWatcher
  rw [List.map_map]
  apply List.map_congr_left
  intro w _
  by_cases h : w.wid = n <;> simp [h]

/-- A watcher with a different creation index survives a stop unchanged. -/
theorem mem_stopWatcher_of_ne (ws : List WatcherRec) (n : Nat) (w : WatcherRec)
    (hw : w ∈ ws) (hne : w.wid ≠ n) : w ∈ stopWatcher ws n := by
  unfold stopWatcher
  have h : (fun x => if x.wid = n then (⟨x.wid, x.session, false⟩ : WatcherRec) else x) w = w := by
    simp [hne]
  rw [← h]
  exact List.mem_map_of_mem _ hw

/-- Every member of a stopped list comes from an original watcher with the
same index and session, and is live only if the original was live and was
not the stopped one. -/
theorem mem_stopWatcher (ws : List WatcherRec) (n : Nat) (w' : WatcherRec)
    (h : w' ∈ stopWatcher ws n) :
    ∃ w ∈ ws, w'.wid = w.wid ∧ w'.session = w.session ∧
      (w'.live = true → w.live = true ∧ w.wid ≠ n) := by
  unfold stopWatcher at h
  rcases List.mem_map.mp h with ⟨w, hw, he⟩
  by_cases hx : w.wid = n
  · rw [if_pos hx] at he
    refine ⟨w, hw, ?_, ?_, ?_⟩
    · rw [← he]
    · rw [← he]
    · rw [← he]
      intro hc
      simp at hc
  · rw [if_neg hx] at he
    subst he
    exact ⟨w, hw, rfl, rfl, fun hl => ⟨hl, hx⟩⟩

/-- The registry invariant holds before any play action. -/
theorem regInv_init : RegInv initState := by
  refine ⟨?_, ?_, ?_, ?_⟩ <;> simp [initState, lookupA]

/-- No watcher was registered for the session: `play` just constructs,
starts and registers the fresh watcher. -/
theorem play_of_none (st : RegistryState) (sid : String)
    (h : lookupA st.active_threads sid = none) :
    play st sid = ⟨st.nextId + 1, st.watchers ++ [⟨st.nextId, sid, true⟩],
      setA st.active_threads sid st.nextId⟩ := by
  unfold play
  rw [h]

/-- A watcher was registered for the session: `play` stops and joins it
before constructing and registering the replacement. -/
theorem play_of_some (st : RegistryState) (sid : String) (oldId : Nat)
    (h : lookupA st.active_threads sid = some oldId) :
    play st sid = ⟨st.nextId + 1, stopWatcher st.watchers oldId ++ [⟨st.nextId, sid, true⟩],
      setA st.active_threads sid st.nextId⟩ := by
  unfold play
  rw [h]

/-- One play action preserves the registry invariant. -/
theorem regInv_play (st : RegistryState) (sid : String) (h : RegInv st) :
    RegInv (play st sid) := by
  obtain ⟨h1, h2, h3, h4⟩ := h
  cases hlk : lookupA st.active_threads sid with
  | none =>
    rw [play_of_none st sid hlk]
    refine ⟨?_, ?_, ?_, ?_⟩
    · intro w' hw' hl
      rcases List.mem_append.mp hw' with hin | hin
      · have hses : w'.session ≠ sid := by
          intro he
          have := h1 w' hin hl
          rw [he, hlk] at this
          exact Option.noConfusion this
        rw [lookupA_setA_ne _ _ _ _ (fun e => hses e.symm)]
        exact h1 w' hin hl
      · rcases List.mem_singleton.mp hin with rfl
        exact lookupA_setA_self _ _ _
    · rw [List.map_append]
      rw [List.nodup_append]
      refine ⟨h2, by simp, ?_⟩
      intro x hx hx'
      rcases List.mem_map.mp hx with ⟨w, hw, rfl⟩
      have := h3 w hw
      simp at hx'
      omega
    · intro w' hw'
      rcases List.mem_append.mp hw' with hin | hin
      · exact Nat.lt_succ_of_lt (h3 w' hin)
      · rcases List.mem_singleton.mp hin with rfl
        exact Nat.lt_succ_self _
    · intro s n hn
      by_cases hs : s = sid
      · subst hs
        rw [lookupA_setA_self] at hn
        rcases Option.some.inj hn with rfl
        exact ⟨⟨st.nextId, s, true⟩, List.mem_append_right _ (List.mem_singleton_self _),
          rfl, rfl, rfl⟩
      · rw [lookupA_setA_ne _ _ _ _ (fun e => hs e.symm)] at hn
        rcases h4 s n hn with ⟨w, hw, hwid, hses, hlive⟩
        exact ⟨w, List.mem_append_left _ hw, hwid, hses, hlive⟩
  | some oldId =>
    rcases h4 sid oldId hlk with ⟨wold, hwold, hwoldid, hwoldses, hwoldlive⟩
    rw [play_of_some st sid oldId hlk]
    refine ⟨?_, ?_, ?_, ?_⟩
    · intro w' hw' hl
      rcases List.mem_append.mp hw' with hin | hin
      · rcases mem_stopWatcher st.watchers oldId w' hin with ⟨w, hw, hid, hses, hlv⟩
        rcases hlv hl with ⟨hwl, hwne⟩
        have hlook := h1 w hw hwl
        have hses' : w.session ≠ sid := by
          intro he
          rw [he, hlk] at hlook
          exact hwne (Option.some.inj hlook).symm
        rw [hses, hid]
        rw [lookupA_setA_ne _ _ _ _ (fun e => hses' e.symm)]
        exact hlook
      · rcases List.mem_singleton.mp hin with rfl
        exact lookupA_setA_self _ _ _
    · rw [List.map_append, List.nodup_append, stopWatcher_wids]
      refine ⟨h2, by simp, ?_⟩
      intro x hx hx'
      rcases List.mem_map.mp hx with ⟨w, hw, rfl⟩
      have := h3 w hw
      simp at hx'
      omega
    · intro w' hw'
      rcases List.mem_append.mp hw' with hin | hin
      · rcases mem_stopWatcher st.watchers oldId w' hin with ⟨w, hw, hid, _, _⟩
        rw [hid]
        exact Nat.lt_succ_of_lt (h3 w hw)
      · rcases List.mem_singleton.mp hin with rfl
        exact Nat.lt_succ_self _
    · intro s n hn
      by_cases hs : s = sid
      · subst hs
        rw [lookupA_setA_self] at hn
        rcases Option.some.inj hn with rfl
        exact ⟨⟨st.nextId, s, true⟩, List.mem_append_right _ (List.mem_singleton_self _),
          rfl, rfl, rfl⟩
      · rw [lookupA_setA_ne _ _ _ _ (fun e => hs e.symm)] at hn
        rcases h4 s n hn with ⟨w, hw, hwid, hses, hlive⟩
        have hwne : w.wid ≠ oldId := by
          intro he
          have : w = wold := List.inj_on_of_nodup_map h2 hw hwold (by rw [he, hwoldid])
          rw [this] at hses
          exact hs (hses.symm.trans hwoldses)
        exact ⟨w, List.mem_append_left _ (mem_stopWatcher_of_ne _ _ _ hw hwne),
          hwid, hses, hlive⟩

/-- A predicate satisfied only by watchers with one fixed creation index
selects at most one element of an index-distinct list. -/
theorem filter_length_le_one (p : WatcherRec → Bool) (n : Nat) :
    ∀ l : List WatcherRec, (l.map WatcherRec.wid).Nodup →
      (∀ w ∈ l, p w = true → w.wid = n) → (l.filter p).length ≤ 1
  | [], _, _ => by simp
  | a :: l, hnd, hp => by
    rw [List.map_cons] at hnd
    have hnd' := List.nodup_cons.mp hnd
    by_cases hpa : p a = true
    · rw [List.filter_cons_of_pos hpa]
      have hnil : l.filter p = [] := by
        rw [List.filter_eq_nil_iff]
        intro w hw
        intro hpw
        have hwn : w.wid = n := hp w (List.mem_cons_of_mem a hw) hpw
        have han : a.wid = n := hp a (List.mem_cons_self a l) hpa
        refine hnd'.1 ?_
        rw [han, ← hwn]
        exact List.mem_map_of_mem WatcherRec.wid hw
      rw [hnil]
      exact Nat.le_refl 1
    · rw [List.filter_cons_of_neg hpa]
      exact filter_length_le_one p n l hnd'.2
        (fun w hw hpw => hp w (List.mem_cons_of_mem a hw) hpw)

/-- Under the registry invariant, at most one live watcher exists per
session. -/
theorem liveFor_length_le_one (st : RegistryState) (h : RegInv st) (sid : String) :
    (liveFor st sid).length ≤ 1 := by
  obtain ⟨h1, h2, _, _⟩ := h
  cases hlk : lookupA st.active_threads sid with
  | none =>
    have hnil : liveFor st sid = [] := by
      unfold liveFor
      rw [List.filter_eq_nil_iff]
      intro w hw
      intro hpw
      obtain ⟨ha, hb⟩ := Bool.and_eq_true_iff.mp hpw
      have hsess : w.session = sid := by simpa using ha
      have := h1 w hw hb
      rw [hsess, hlk] at this
      exact Option.noConfusion this
    rw [hnil]
    simp
  | some m =>
    apply filter_length_le_one _ m st.watchers h2
    intro w hw hpw
    obtain ⟨ha, hb⟩ := Bool.and_eq_true_iff.mp hpw
    have hsess : w.session = sid := by simpa using ha
    have hlook := h1 w hw hb
    rw [hsess, hlk] at hlook
    exact (Option.some.inj hlook).symm

/-- Every sequence of play actions maintains the registry invariant. -/
theorem regInv_runPlays_aux : ∀ (sids : List String) (st : RegistryState), RegInv st →
    RegInv (sids.foldl play st)
  | [], _, h => h
  | sid :: sids, st, h => regInv_runPlays_aux sids (play st sid) (regInv_play st sid h)

/-- The registry invariant holds after any sequence of play actions. -/
theorem regInv_runPlays (sids : List String) : RegInv (runPlays sids) :=
  regInv_runPlays_aux sids initState regInv_init

/-- Two plays for one session leave the second watcher as the only live one. -/
theorem liveFor_two_plays (s : String) : liveFor (runPlays [s, s]) s = [⟨1, s, true⟩] := by
  simp [runPlays, play, lookupA, setA, stopWatcher, initState, liveFor, List.filter]

/-- C6: at most one live watcher is registered per session at any time: a
play that finds an existing watcher stops and joins it (inside the lock,
which serializes the critical section — modelled sequentially) before
constructing and registering the replacement.  Every live watcher is the one
registered for its session, and replaying play twice for one session leaves
exactly one live watcher. -/
theorem c6_single_watcher :
    (∀ sids sid, (liveFor (runPlays sids) sid).length ≤ 1) ∧
    (∀ sids, ∀ w ∈ (runPlays sids).watchers, w.live = true →
      lookupA (runPlays sids).active_threads w.session = some w.wid) ∧
    (∀ s, (liveFor (runPlays [s, s]) s).length = 1) := by
  refine ⟨fun sids sid => liveFor_length_le_one _ (regInv_runPlays sids) sid,
    fun sids w hw hl => (regInv_runPlays sids).1 w hw hl,
    fun s => by rw [liveFor_two_plays]; rfl⟩

/-- Witness for `c6_single_watcher`: after one play for session `"a"`, the
watcher with creation index 0 is live and is the registered one. -/
theorem c6_witness :
    (⟨0, "a", true⟩ : WatcherRec) ∈ (runPlays ["a"]).watchers ∧
    lookupA (runPlays ["a"]).active_threads "a" = some 0 :=
  ⟨by decide, c6_single_watcher.2.1 ["a"] ⟨0, "a", true⟩ (by decide) rfl⟩

/-- C1 counterexample: on the word list `[A, B, A]` the code produces two
phrases — the two A-words are merged into one dict entry spanning the B-word
(`start 0`, `end 3`, text `"a c "`) — whereas grouping into maximal runs of
consecutive same-tag words, as the claim states, yields three phrases. -/
theorem c1_counterexample :
    buildPhrases wordsABA ≠ buildPhrasesRuns wordsABA ∧
    (buildPhrases wordsABA).length = 2 ∧
    (buildPhrasesRuns wordsABA).length = 3 := by
  refine ⟨?_, rfl, rfl⟩
  decide

